import Mathlib

/-!
Verification of the multiway-cluster cross-fitting scheme described in the
DoubleML documentation notebooks (`py_double_ml_multiway_cluster.ipynb`) and
of the notebook's `construct_iv` data-preparation function.

The sample splitter and the cluster-robust variance estimator are only
described mathematically in the notebooks (the executable code lives in the
external DoubleML library), so those parts are modelled from the spec.
`construct_iv` is embedded directly from the notebook's Python source.
-/

namespace DoubleMLCluster

/-! ### The multiway-cluster sample splitter -/

/-- Modelled from the spec: the size of the `k`-th of `K` folds over `N`
cluster ids.  The random shuffle of ids is abstracted away (it is an external
source of randomness); as in standard `K`-fold splitting the first `N % K`
folds receive one extra element, so sizes are `N / K + 1` or `N / K`. -/
def foldSize (N K k : ℕ) : ℕ :=
  N / K + (if k < N % K then 1 else 0)

/-- Modelled from the spec: the first cluster id of the `k`-th fold. -/
def foldStart (N K k : ℕ) : ℕ :=
  k * (N / K) + min k (N % K)

/-- Modelled from the spec: the `k`-th fold `I_k` of the partition of
`[N] = {0, …, N-1}` into `K` consecutive blocks. -/
def fold (N K k : ℕ) : List ℕ :=
  (List.range N).filter fun i =>
    decide (foldStart N K k ≤ i ∧ i < foldStart N K (k + 1))

/-- The complement `[N] \ I` of an index list inside `[N]`. -/
def setCompl (N : ℕ) (I : List ℕ) : List ℕ :=
  (List.range N).filter fun i => decide (i ∉ I)

/-- The nuisance block `[N] \ I_k` complementary to the `k`-th fold. -/
def foldCompl (N K k : ℕ) : List ℕ :=
  setCompl N (fold N K k)

theorem foldStart_zero (N K : ℕ) : foldStart N K 0 = 0 := by
  simp [foldStart]

theorem foldStart_succ (N K k : ℕ) :
    foldStart N K (k + 1) = foldStart N K k + foldSize N K k := by
  unfold foldStart foldSize
  rw [Nat.succ_mul]
  rcases Nat.lt_or_ge k (N % K) with h | h
  · rw [if_pos h]; omega
  · rw [if_neg (Nat.not_lt.mpr h)]; omega

theorem foldStart_mono (N K : ℕ) {k k' : ℕ} (h : k ≤ k') :
    foldStart N K k ≤ foldStart N K k' := by
  induction k' with
  | zero =>
    have hk0 : k = 0 := Nat.le_zero.mp h
    subst hk0; exact le_refl _
  | succ m ih =>
    rcases Nat.lt_or_ge k (m + 1) with hk | hk
    · calc foldStart N K k ≤ foldStart N K m := ih (Nat.lt_succ_iff.mp hk)
        _ ≤ foldStart N K (m + 1) := by
            rw [foldStart_succ]; exact Nat.le_add_right _ _
    · have : k = m + 1 := Nat.le_antisymm h hk
      simp [this]

theorem foldStart_top (N K : ℕ) (hK : 0 < K) : foldStart N K K = N := by
  unfold foldStart
  rw [Nat.min_eq_right (Nat.le_of_lt (Nat.mod_lt _ hK))]
  exact Nat.div_add_mod N K

theorem mem_fold (N K k i : ℕ) :
    i ∈ fold N K k ↔
      i < N ∧ foldStart N K k ≤ i ∧ i < foldStart N K (k + 1)  := by
  simp [fold, List.mem_filter, List.mem_range]

theorem foldSize_pos (N K k : ℕ) (hK : 0 < K) (hKN : K ≤ N) :
    0 < foldSize N K k := by
  have : 1 ≤ N / K := (Nat.one_le_div_iff hK).mpr hKN
  unfold foldSize
  omega

/-- Each fold is non-empty for a valid fold count `K ≤ N`. -/
theorem fold_nonempty (N K k : ℕ) (hk : k < K) (hKN : K ≤ N) :
    fold N K k ≠ [] := by
  have hK : 0 < K := Nat.lt_of_le_of_lt (Nat.zero_le k) hk
  have hlt : foldStart N K k < foldStart N K (k + 1) := by
    rw [foldStart_succ]
    exact Nat.lt_add_of_pos_right (foldSize_pos N K k hK hKN)
  have hle : foldStart N K (k + 1) ≤ N := by
    have := foldStart_mono N K (Nat.succ_le_of_lt hk)
    rwa [foldStart_top N K hK] at this
  have hmem : foldStart N K k ∈ fold N K k := by
    rw [mem_fold]
    exact ⟨Nat.lt_of_lt_of_le hlt hle, le_refl _, hlt⟩
  intro hnil
  rw [hnil] at hmem
  exact (List.not_mem_nil _) hmem

/-- Distinct folds are disjoint. -/
theorem fold_disjoint (N K : ℕ) {k k' i : ℕ} (hne : k ≠ k')
    (h : i ∈ fold N K k) (h' : i ∈ fold N K k') : False := by
  rw [mem_fold] at h h'
  rcases Nat.lt_or_ge k k' with hlt | hge
  · have : foldStart N K (k + 1) ≤ foldStart N K k' :=
      foldStart_mono N K hlt
    omega
  · have hlt : k' < k := by omega
    have : foldStart N K (k' + 1) ≤ foldStart N K k :=
      foldStart_mono N K hlt
    omega

/-- Every index below `N` lies in some fold `k < K`. -/
theorem exists_fold_mem (N K : ℕ) (hK : 0 < K) {i : ℕ} (hi : i < N) :
    ∃ k, k < K ∧ i ∈ fold N K k := by
  have key : ∀ m, m ≤ K → i < foldStart N K m →
      ∃ k, k < m ∧ i ∈ fold N K k := by
    intro m
    induction m with
    | zero => intro _ h; rw [foldStart_zero] at h; omega
    | succ m ih =>
      intro hm h
      rcases Nat.lt_or_ge i (foldStart N K m) with hlt | hge
      · obtain ⟨k, hk, hmem⟩ := ih (Nat.le_of_succ_le hm) hlt
        exact ⟨k, Nat.lt_succ_of_lt hk, hmem⟩
      · refine ⟨m, Nat.lt_succ_self m, ?_⟩
        rw [mem_fold]
        exact ⟨hi, hge, h⟩
  refine key K (le_refl K) ?_
  rwa [foldStart_top N K hK]

/-- Modelled from the spec: the partition `{I_1, …, I_K}` of `[N]`. -/
def partitionList (N K : ℕ) : List (List ℕ) :=
  (List.range K).map (fold N K)

/-- Modelled from the spec: given one partition per cluster dimension, the
list of folds `(k, ℓ)`, each carrying its score subset `(I_k, J_ℓ)` and its
nuisance subset `([N] \ I_k, [M] \ J_ℓ)`. -/
def smplsFromParts (N M : ℕ) (partsI partsJ : List (List ℕ)) :
    List ((List ℕ × List ℕ) × (List ℕ × List ℕ)) :=
  partsI.flatMap fun I => partsJ.map fun J =>
    ((I, J), (setCompl N I, setCompl M J))

/-- Modelled from the spec: the two-way cluster sample splitter, producing
the `K * K` folds used for cluster-robust cross-fitting. -/
def smplsCluster (N M K : ℕ) : List ((List ℕ × List ℕ) × (List ℕ × List ℕ)) :=
  smplsFromParts N M (partitionList N K) (partitionList M K)

/-- Modelled from the spec: the one-way cluster sample splitter, producing
`K` folds over the single cluster dimension `[N]`. -/
def smplsOneWay (N K : ℕ) : List (List ℕ × List ℕ) :=
  (List.range K).map fun k => (fold N K k, foldCompl N K k)

theorem mem_setCompl (N : ℕ) (I : List ℕ) (i : ℕ) :
    i ∈ setCompl N I ↔ i < N ∧ i ∉ I := by
  simp [setCompl, List.mem_filter, List.mem_range]

theorem mem_smplsCluster (N M K : ℕ) (s : (List ℕ × List ℕ) × (List ℕ × List ℕ)) :
    s ∈ smplsCluster N M K ↔
      ∃ k, k < K ∧ ∃ l, l < K ∧
        s = ((fold N K k, fold M K l), (foldCompl N K k, foldCompl M K l)) := by
  simp only [smplsCluster, smplsFromParts, partitionList, List.mem_flatMap,
    List.mem_map, List.mem_range]
  constructor
  · rintro ⟨I, ⟨k, hk, rfl⟩, J, ⟨l, hl, rfl⟩, rfl⟩
    exact ⟨k, hk, l, hl, rfl⟩
  · rintro ⟨k, hk, l, hl, rfl⟩
    exact ⟨fold N K k, ⟨k, hk, rfl⟩, fold M K l, ⟨l, hl, rfl⟩, rfl⟩

/-- C1: for every fold produced by the two-way cluster sample splitter, the
score subset and the nuisance subset share no cluster id in either dimension,
so no nuisance observation shares either cluster index with any score
observation of the same fold. -/
theorem score_nuisance_share_no_cluster_id (N M K : ℕ)
    (s : (List ℕ × List ℕ) × (List ℕ × List ℕ)) (hs : s ∈ smplsCluster N M K) :
    (∀ i ∈ s.1.1, i ∉ s.2.1) ∧ (∀ j ∈ s.1.2, j ∉ s.2.2) ∧
      ∀ p ∈ s.1.1 ×ˢ s.1.2, ∀ q ∈ s.2.1 ×ˢ s.2.2, p.1 ≠ q.1 ∧ p.2 ≠ q.2 := by
  rw [mem_smplsCluster] at hs
  obtain ⟨k, hk, l, hl, rfl⟩ := hs
  simp only
  have hI : ∀ i ∈ fold N K k, i ∉ foldCompl N K k := by
    intro i hi hmem
    rw [foldCompl, mem_setCompl] at hmem
    exact hmem.2 hi
  have hJ : ∀ j ∈ fold M K l, j ∉ foldCompl M K l := by
    intro j hj hmem
    rw [foldCompl, mem_setCompl] at hmem
    exact hmem.2 hj
  refine ⟨hI, hJ, ?_⟩
  rintro ⟨i, j⟩ hp ⟨i', j'⟩ hq
  rw [List.mem_product] at hp hq
  constructor
  · intro hii
    have hii' : i = i' := hii
    exact hI i hp.1 (hii' ▸ hq.1)
  · intro hjj
    have hjj' : j = j' := hjj
    exact hJ j hp.2 (hjj' ▸ hq.2)

theorem score_nuisance_share_no_cluster_id_witness :
    (((([0], [0]), ([1], [1])) : (List ℕ × List ℕ) × (List ℕ × List ℕ))
        ∈ smplsCluster 2 2 2) ∧
      ((∀ i ∈ [(0 : ℕ)], i ∉ [(1 : ℕ)]) ∧ (∀ j ∈ [(0 : ℕ)], j ∉ [(1 : ℕ)]) ∧
        ∀ p ∈ [(0 : ℕ)] ×ˢ [(0 : ℕ)], ∀ q ∈ [(1 : ℕ)] ×ˢ [(1 : ℕ)],
          p.1 ≠ q.1 ∧ p.2 ≠ q.2) := by
  have hmem : ((([0], [0]), ([1], [1])) : (List ℕ × List ℕ) × (List ℕ × List ℕ))
      ∈ smplsCluster 2 2 2 := by decide
  exact ⟨hmem, score_nuisance_share_no_cluster_id 2 2 2 _ hmem⟩

theorem partition_exists_unique (N K : ℕ) (hK : 1 ≤ K)
    {i : ℕ} (hi : i < N) : ∃! k, k < K ∧ i ∈ fold N K k := by
  obtain ⟨k, hk, hmem⟩ := exists_fold_mem N K hK hi
  refine ⟨k, ⟨hk, hmem⟩, ?_⟩
  rintro k' ⟨_, hmem'⟩
  by_contra hne
  exact fold_disjoint N K hne hmem' hmem

/-- C2: for every `K` with `1 ≤ K ≤ min N M`, the splitter's two families
are genuine partitions: every element of `[N]` (resp. `[M]`) lies in exactly
one `I_k` (resp. `J_ℓ`), and every subset is non-empty. -/
theorem splitter_produces_partitions (N M K : ℕ) (hK : 1 ≤ K)
    (hKNM : K ≤ min N M) :
    (∀ i < N, ∃! k, k < K ∧ i ∈ fold N K k) ∧
      (∀ j < M, ∃! l, l < K ∧ j ∈ fold M K l) ∧
      (∀ I ∈ partitionList N K, I ≠ []) ∧
      ∀ J ∈ partitionList M K, J ≠ [] := by
  have hKN : K ≤ N := le_trans hKNM (Nat.min_le_left N M)
  have hKM : K ≤ M := le_trans hKNM (Nat.min_le_right N M)
  refine ⟨fun i hi => partition_exists_unique N K hK hi,
    fun j hj => partition_exists_unique M K hK hj, ?_, ?_⟩
  · intro I hI
    rw [partitionList, List.mem_map] at hI
    obtain ⟨k, hk, rfl⟩ := hI
    rw [List.mem_range] at hk
    exact fold_nonempty N K k hk hKN
  · intro J hJ
    rw [partitionList, List.mem_map] at hJ
    obtain ⟨l, hl, rfl⟩ := hJ
    rw [List.mem_range] at hl
    exact fold_nonempty M K l hl hKM

theorem splitter_produces_partitions_witness :
    (∀ i < 3, ∃! k, k < 2 ∧ i ∈ fold 3 2 k) ∧
      (∀ j < 3, ∃! l, l < 2 ∧ j ∈ fold 3 2 l) ∧
      (∀ I ∈ partitionList 3 2, I ≠ []) ∧
      ∀ J ∈ partitionList 3 2, J ≠ [] :=
  splitter_produces_partitions 3 3 2 (by decide) (by decide)

theorem sum_map_const {α : Type} (l : List α) (c : ℕ) :
    (l.map fun _ => c).sum = l.length * c := by
  induction l with
  | nil => simp
  | cons a t ih => simp [ih, Nat.succ_mul]; omega

theorem flatMap_single {α β : Type} (l : List α) (h : α → β) :
    (l.flatMap fun a => [h a]) = l.map h := by
  induction l with
  | nil => rfl
  | cons a t ih => simp [ih]

/-- C7: the two-way splitter produces `K * K` folds, the one-way splitter
produces `K` folds, and the one-way result is exactly the two-way procedure
run with the second dimension fixed to the single trivial partition
`J_1 = [M]`, keeping only the first cluster dimension of each fold. -/
theorem fold_counts_and_oneway_reduction (N M K : ℕ) :
    (smplsCluster N M K).length = K * K ∧ (smplsOneWay N K).length = K ∧
      smplsOneWay N K =
        (smplsFromParts N M (partitionList N K) [List.range M]).map
          fun s => (s.1.1, s.2.1) := by
  refine ⟨?_, by simp [smplsOneWay], ?_⟩
  · rw [smplsCluster, smplsFromParts, List.length_flatMap]
    have : (List.map (List.length ∘ fun I => (partitionList M K).map fun J =>
        ((I, J), (setCompl N I, setCompl M J))) (partitionList N K)) =
        (partitionList N K).map fun _ => K := by
      apply List.map_congr_left
      intro I _
      simp [partitionList]
    rw [this, sum_map_const]
    simp [partitionList]
  · rw [smplsFromParts]
    have : ((partitionList N K).flatMap fun I => [List.range M].map fun J =>
        ((I, J), (setCompl N I, setCompl M J))) =
        (partitionList N K).map fun I =>
          ((I, List.range M), (setCompl N I, setCompl M (List.range M))) := by
      exact flatMap_single _ _
    rw [this, partitionList, List.map_map, List.map_map]
    rw [smplsOneWay]
    apply List.map_congr_left
    intro k _
    simp [Function.comp, foldCompl]

/-! ### Configuration checking (fail fast on degenerate fold counts) -/

/-- Modelled from the spec: the configuration check performed before any
nuisance fitting or variance computation.  A fold count `K` exceeding the
number of cluster ids of a used dimension is a configuration error. -/
def checkConfig (oneway : Bool) (N M K : ℕ) : Except String Unit :=
  if N < K then
    Except.error ("fold count exceeds the number of first-dimension clusters")
  else if oneway = false ∧ M < K then
    Except.error ("fold count exceeds the number of second-dimension clusters")
  else Except.ok ()

/-- Modelled from the spec: the two-way splitting procedure, running the
configuration check before producing any folds. -/
def runTwoWay (N M K : ℕ) :
    Except String (List ((List ℕ × List ℕ) × (List ℕ × List ℕ))) :=
  match checkConfig false N M K with
  | Except.error e => Except.error e
  | Except.ok _ => Except.ok (smplsCluster N M K)

/-- Modelled from the spec: the one-way splitting procedure, running the
configuration check before producing any folds. -/
def runOneWay (N K : ℕ) : Except String (List (List ℕ × List ℕ)) :=
  match checkConfig true N 0 K with
  | Except.error e => Except.error e
  | Except.ok _ => Except.ok (smplsOneWay N K)

theorem runTwoWay_ok_iff (N M K : ℕ) (out : List ((List ℕ × List ℕ) × (List ℕ × List ℕ))) :
    runTwoWay N M K = Except.ok out ↔
      K ≤ N ∧ K ≤ M ∧ out = smplsCluster N M K := by
  unfold runTwoWay checkConfig
  by_cases h1 : N < K
  · simp [h1]
  · by_cases h2 : M < K
    · simp [h1, h2]
    · simp [h1, h2]
      constructor
      · intro h
        exact ⟨Nat.le_of_not_lt h1, Nat.le_of_not_lt h2, h.symm⟩
      · intro h
        exact h.2.2.symm

/-- C6: a configuration with `K > N` (or, two-way, `K > M`) is rejected as a
configuration error before any folds are produced; conversely an accepted
configuration never yields a fold whose score-subset cardinality `|I_k|` or
`|J_ℓ|` is zero, so no division by a zero fold cardinality can be reached. -/
theorem too_many_folds_is_config_error (N M K : ℕ) :
    ((N < K ∨ M < K) → (runTwoWay N M K).isOk = false) ∧
      ((N < K → (runOneWay N K).isOk = false) ∧
        (∀ out, runTwoWay N M K = Except.ok out →
          ∀ s ∈ out, 0 < s.1.1.length ∧ 0 < s.1.2.length) ∧
        ∀ out, runOneWay N K = Except.ok out → ∀ s ∈ out, 0 < s.1.length) := by
  refine ⟨?_, ?_, ?_, ?_⟩
  · intro h
    unfold runTwoWay checkConfig
    by_cases h1 : N < K
    · simp [h1, Except.isOk, Except.toBool]
    · have h2 : M < K := by omega
      simp [h1, h2, Except.isOk, Except.toBool]
  · intro h1
    unfold runOneWay checkConfig
    simp [h1, Except.isOk, Except.toBool]
  · intro out hout
    rw [runTwoWay_ok_iff] at hout
    obtain ⟨hKN, hKM, rfl⟩ := hout
    intro s hs
    rw [mem_smplsCluster] at hs
    obtain ⟨k, hk, l, hl, rfl⟩ := hs
    constructor
    · exact List.length_pos.mpr (fold_nonempty N K k hk hKN)
    · exact List.length_pos.mpr (fold_nonempty M K l hl hKM)
  · intro out hout
    unfold runOneWay checkConfig at hout
    by_cases h1 : N < K
    · simp [h1] at hout
    · simp [h1] at hout
      subst hout
      intro s hs
      rw [smplsOneWay, List.mem_map] at hs
      obtain ⟨k, hk, rfl⟩ := hs
      rw [List.mem_range] at hk
      exact List.length_pos.mpr (fold_nonempty N K k hk (Nat.le_of_not_lt h1))

/-! ### List summation helpers -/

theorem sum_flatMap {α : Type} (l : List α) (f : α → List ℚ) :
    (l.flatMap f).sum = (l.map fun a => (f a).sum).sum := by
  induction l with
  | nil => rfl
  | cons a t ih => simp [ih]

theorem sum_map_ite_push {c : Prop} [Decidable c] (J : List ℕ) (f : ℕ → ℚ) :
    (J.map fun j => if c then f j else 0).sum = if c then (J.map f).sum else 0 := by
  by_cases h : c <;> simp [h]

theorem sum_ite_eq_of_nodup (I : List ℕ) (hI : I.Nodup) {i : ℕ} (hi : i ∈ I)
    (g : ℕ → ℚ) : (I.map fun i' => if i = i' then g i' else 0).sum = g i := by
  induction I with
  | nil => cases hi
  | cons a t ih =>
    rcases List.mem_cons.mp hi with rfl | hit
    · have hnt : ∀ i' ∈ t, (if i = i' then g i' else 0) = 0 := by
        intro i' hi'
        have : i ≠ i' := fun h => (List.nodup_cons.mp hI).1 (h ▸ hi')
        simp [this]
      simp only [List.map_cons, List.sum_cons, if_pos rfl]
      rw [List.map_congr_left hnt]
      simp
    · have hne : i ≠ a := by
        rintro rfl
        exact (List.nodup_cons.mp hI).1 hit
      simp only [List.map_cons, List.sum_cons, if_neg hne]
      rw [ih (List.nodup_cons.mp hI).2 hit]
      ring

theorem sum_product_eq (I J : List ℕ) (f : ℕ × ℕ → ℚ) :
    ((I ×ˢ J).map f).sum = (I.map fun i => (J.map fun j => f (i, j)).sum).sum := by
  induction I with
  | nil => rfl
  | cons a t ih =>
    have : (a :: t) ×ˢ J = J.map (Prod.mk a) ++ t ×ˢ J := rfl
    rw [this, List.map_append, List.sum_append, ih, List.map_map]
    rfl

theorem sum_comm_list (I J : List ℕ) (X : ℕ → ℕ → ℚ) :
    (J.map fun j => (I.map fun i => X i j).sum).sum =
      (I.map fun i => (J.map fun j => X i j).sum).sum := by
  induction J with
  | nil => simp
  | cons b u ih =>
    simp only [List.map_cons, List.sum_cons, ih]
    rw [← List.sum_map_add]

/-! ### Cluster-robust variance estimator (Γ̂, Ĵ, σ̂²) -/

/-- Modelled from the spec: the inner double sums of the notebook's Γ̂
formula: products of ψ over pairs sharing the first cluster index plus
products of ψ over pairs sharing the second cluster index. -/
def innerGamma (psi : ℕ → ℕ → ℚ) (I J : List ℕ) : ℚ :=
  (I.map fun i => (J.map fun j => (J.map fun j' => psi i j * psi i j').sum).sum).sum
    + (I.map fun i => (I.map fun i' => (J.map fun j => psi i j * psi i' j).sum).sum).sum

/-- Modelled from the spec: one fold's contribution to Γ̂, scaled by
`min(|I_k|, |J_ℓ|) / (|I_k| |J_ℓ|)²`. -/
def gammaFold (psi : ℕ → ℕ → ℚ) (I J : List ℕ) : ℚ :=
  ((min I.length J.length : ℚ) / ((I.length : ℚ) * (J.length : ℚ)) ^ 2) *
    innerGamma psi I J

/-- Modelled from the spec: Γ̂, the notebook's double-sum formula averaged
over the `K²` folds. -/
def gammaHat (psi : ℕ → ℕ → ℚ) (N M K : ℕ) : ℚ :=
  (1 / (K : ℚ) ^ 2) *
    ((List.range K).map fun k =>
      ((List.range K).map fun l => gammaFold psi (fold N K k) (fold M K l)).sum).sum

/-- Modelled from the spec: one fold's contribution to Ĵ, the mean of `ψ_a`
over the fold's score subset weighted by `1 / (|I_k| |J_ℓ|)`. -/
def jFold (psi_a : ℕ → ℕ → ℚ) (I J : List ℕ) : ℚ :=
  (1 / ((I.length : ℚ) * (J.length : ℚ))) *
    (I.map fun i => (J.map fun j => psi_a i j).sum).sum

/-- Modelled from the spec: Ĵ averaged over the `K²` folds. -/
def jHat (psi_a : ℕ → ℕ → ℚ) (N M K : ℕ) : ℚ :=
  (1 / (K : ℚ) ^ 2) *
    ((List.range K).map fun k =>
      ((List.range K).map fun l => jFold psi_a (fold N K k) (fold M K l)).sum).sum

/-- The order-insensitive aggregation of per-fold results: their mean. -/
def aggMean (vals : List ℚ) : ℚ := vals.sum / vals.length

/-- Modelled from the spec: the sandwich variance `σ̂² = Ĵ⁻¹ Γ̂ Ĵ⁻¹`. -/
def sigmaHat2 (gamma j : ℚ) : ℚ := j⁻¹ * gamma * j⁻¹

theorem smplsFromParts_length (N M : ℕ) (pI pJ : List (List ℕ)) :
    (smplsFromParts N M pI pJ).length = pI.length * pJ.length := by
  rw [smplsFromParts, List.length_flatMap]
  have : (List.map (List.length ∘ fun I => pJ.map fun J =>
      ((I, J), (setCompl N I, setCompl M J))) pI) = pI.map fun _ => pJ.length := by
    apply List.map_congr_left
    intro I _
    simp [Function.comp]
  rw [this, sum_map_const]

theorem smplsCluster_length (N M K : ℕ) : (smplsCluster N M K).length = K * K := by
  rw [smplsCluster, smplsFromParts_length]
  simp [partitionList]

theorem sum_map_smplsCluster (N M K : ℕ) (f : List ℕ → List ℕ → ℚ) :
    ((smplsCluster N M K).map fun s => f s.1.1 s.1.2).sum =
      ((List.range K).map fun k =>
        ((List.range K).map fun l => f (fold N K k) (fold M K l)).sum).sum := by
  rw [smplsCluster, smplsFromParts, List.map_flatMap, sum_flatMap, partitionList,
    partitionList, List.map_map]
  apply congrArg List.sum
  apply List.map_congr_left
  intro k _
  simp only [Function.comp_apply]
  rw [List.map_map, List.map_map]
  apply congrArg List.sum
  exact List.map_congr_left fun l _ => rfl

/-- C4: Ĵ equals the average over the `K²` folds of the per-fold weighted
mean `(1/(|I_k||J_ℓ|)) Σ_{i∈I_k} Σ_{j∈J_ℓ} ψ_a(W_ij)`; each fold value is that
weighted mean of `ψ_a` over the fold's score subset. -/
theorem jHat_is_fold_averaged_mean (psi_a : ℕ → ℕ → ℚ) (N M K : ℕ) :
    jHat psi_a N M K =
        aggMean ((smplsCluster N M K).map fun s => jFold psi_a s.1.1 s.1.2) ∧
      ∀ I J : List ℕ, jFold psi_a I J =
        ((I ×ˢ J).map fun p => psi_a p.1 p.2).sum /
          ((I.length : ℚ) * (J.length : ℚ)) := by
  constructor
  · have hcast : ((K * K : ℕ) : ℚ) = (K : ℚ) ^ 2 := by push_cast; ring
    rw [aggMean, sum_map_smplsCluster, List.length_map, smplsCluster_length, hcast,
      jHat, one_div_mul_eq_div]
  · intro I J
    rw [jFold, sum_product_eq, one_div_mul_eq_div]

/-- C8: for any fixed per-fold score contributions, aggregating the folds in
any order yields the same Ĵ and the same σ̂²: the aggregation is a sum-based
reduction, invariant under permutation of the fold results. -/
theorem aggregation_perm_invariant (gvals gvals' jvals jvals' : List ℚ)
    (hg : gvals.Perm gvals') (hj : jvals.Perm jvals') :
    aggMean jvals = aggMean jvals' ∧
      sigmaHat2 (aggMean gvals) (aggMean jvals) =
        sigmaHat2 (aggMean gvals') (aggMean jvals') := by
  have hjm : aggMean jvals = aggMean jvals' := by
    rw [aggMean, aggMean, hj.sum_eq, hj.length_eq]
  have hgm : aggMean gvals = aggMean gvals' := by
    rw [aggMean, aggMean, hg.sum_eq, hg.length_eq]
  exact ⟨hjm, by rw [hjm, hgm]⟩

theorem aggregation_perm_invariant_witness :
    aggMean [(1 : ℚ), 2] = aggMean [(2 : ℚ), 1] ∧
      sigmaHat2 (aggMean [(3 : ℚ), 4]) (aggMean [(1 : ℚ), 2]) =
        sigmaHat2 (aggMean [(4 : ℚ), 3]) (aggMean [(2 : ℚ), 1]) :=
  aggregation_perm_invariant [3, 4] [4, 3] [1, 2] [2, 1]
    (List.Perm.swap 4 3 []) (List.Perm.swap 2 1 [])

/-- Following the claim's words: the per-fold pair sum in which every ordered
pair of score-subset observations sharing the first or the second cluster
index contributes exactly once. -/
def innerGammaOnce (psi : ℕ → ℕ → ℚ) (I J : List ℕ) : ℚ :=
  ((I ×ˢ J).map fun p => ((I ×ˢ J).map fun q =>
    if p.1 = q.1 ∨ p.2 = q.2 then psi p.1 p.2 * psi q.1 q.2 else 0).sum).sum

/-- Following the claim's words: Γ̂ built from the once-per-qualifying-pair
sum, with the same scaling and fold averaging as `gammaHat`. -/
def gammaHatOnce (psi : ℕ → ℕ → ℚ) (N M K : ℕ) : ℚ :=
  (1 / (K : ℚ) ^ 2) *
    ((List.range K).map fun k =>
      ((List.range K).map fun l =>
        ((min (fold N K k).length (fold M K l).length : ℚ) /
            (((fold N K k).length : ℚ) * ((fold M K l).length : ℚ)) ^ 2) *
          innerGammaOnce psi (fold N K k) (fold M K l)).sum).sum

/-- The per-fold pair sum in which every ordered pair contributes once per
shared cluster dimension: pairs sharing only one index contribute once, pairs
sharing both (the diagonal pairs) contribute twice. -/
def innerGammaMult (psi : ℕ → ℕ → ℚ) (I J : List ℕ) : ℚ :=
  ((I ×ˢ J).map fun p => ((I ×ˢ J).map fun q =>
    ((if p.1 = q.1 then (1 : ℚ) else 0) + (if p.2 = q.2 then (1 : ℚ) else 0)) *
      (psi p.1 p.2 * psi q.1 q.2)).sum).sum

/-- Γ̂ built from the multiplicity-weighted pair sum, with the same scaling
and fold averaging as `gammaHat`. -/
def gammaHatMult (psi : ℕ → ℕ → ℚ) (N M K : ℕ) : ℚ :=
  (1 / (K : ℚ) ^ 2) *
    ((List.range K).map fun k =>
      ((List.range K).map fun l =>
        ((min (fold N K k).length (fold M K l).length : ℚ) /
            (((fold N K k).length : ℚ) * ((fold M K l).length : ℚ)) ^ 2) *
          innerGammaMult psi (fold N K k) (fold M K l)).sum).sum

theorem fold_nodup (N K k : ℕ) : (fold N K k).Nodup :=
  (List.nodup_range N).filter _

theorem innerGammaMult_eq (psi : ℕ → ℕ → ℚ) (I J : List ℕ)
    (hI : I.Nodup) (hJ : J.Nodup) :
    innerGammaMult psi I J = innerGamma psi I J := by
  unfold innerGammaMult innerGamma
  have hsplit : ((I ×ˢ J).map fun p => ((I ×ˢ J).map fun q =>
      ((if p.1 = q.1 then (1 : ℚ) else 0) + (if p.2 = q.2 then (1 : ℚ) else 0)) *
        (psi p.1 p.2 * psi q.1 q.2)).sum).sum =
      ((I ×ˢ J).map fun p => ((I ×ˢ J).map fun q =>
          if p.1 = q.1 then psi p.1 p.2 * psi q.1 q.2 else 0).sum).sum +
        ((I ×ˢ J).map fun p => ((I ×ˢ J).map fun q =>
          if p.2 = q.2 then psi p.1 p.2 * psi q.1 q.2 else 0).sum).sum := by
    rw [← List.sum_map_add]
    apply congrArg List.sum
    apply List.map_congr_left
    intro p _
    rw [← List.sum_map_add]
    apply congrArg List.sum
    apply List.map_congr_left
    intro q _
    by_cases h1 : p.1 = q.1 <;> by_cases h2 : p.2 = q.2 <;> simp [h1, h2, add_mul]
  rw [hsplit]
  congr 1
  · rw [sum_product_eq]
    apply congrArg List.sum
    apply List.map_congr_left
    intro i hiI
    apply congrArg List.sum
    apply List.map_congr_left
    intro j _
    rw [sum_product_eq]
    have hpush : (I.map fun i' =>
        (J.map fun j' => if i = i' then psi i j * psi i' j' else 0).sum).sum =
        (I.map fun i' =>
          if i = i' then (J.map fun j' => psi i j * psi i' j').sum else 0).sum := by
      apply congrArg List.sum
      exact List.map_congr_left fun i' _ => sum_map_ite_push J _
    rw [hpush, sum_ite_eq_of_nodup I hI hiI]
  · rw [sum_product_eq]
    apply congrArg List.sum
    apply List.map_congr_left
    intro i _
    have hinner : (J.map fun j =>
        ((I ×ˢ J).map fun q => if j = q.2 then psi i j * psi q.1 q.2 else 0).sum).sum =
        (J.map fun j => (I.map fun i' => psi i j * psi i' j).sum).sum := by
      apply congrArg List.sum
      apply List.map_congr_left
      intro j hjJ
      rw [sum_product_eq]
      apply congrArg List.sum
      apply List.map_congr_left
      intro i' _
      exact sum_ite_eq_of_nodup J hJ hjJ _
    rw [hinner, sum_comm_list]

/-- C3 (amended): Γ̂ equals the pair sum over ordered pairs of score-subset
observations sharing a cluster index, with each pair contributing once per
shared dimension (so the diagonal pairs, which share both indices, contribute
twice), scaled by `min(|I_k|,|J_ℓ|)/(|I_k||J_ℓ|)²` and averaged over the `K²`
folds. -/
theorem gammaHat_eq_pair_sum_with_multiplicity (psi : ℕ → ℕ → ℚ) (N M K : ℕ) :
    gammaHat psi N M K = gammaHatMult psi N M K := by
  unfold gammaHat gammaHatMult
  congr 1
  apply congrArg List.sum
  apply List.map_congr_left
  intro k _
  apply congrArg List.sum
  apply List.map_congr_left
  intro l _
  rw [gammaFold, innerGammaMult_eq psi _ _ (fold_nodup N K k) (fold_nodup M K l)]

/-- C3 counterexample: at `N = M = K = 1` with `ψ ≡ 1` the notebook's Γ̂
formula gives `2` (the single diagonal pair is counted by both double sums)
while the claim's once-per-qualifying-pair sum gives `1`. -/
theorem gammaHat_once_counterexample :
    gammaHat (fun _ _ => 1) 1 1 1 = 2 ∧ gammaHatOnce (fun _ _ => 1) 1 1 1 = 1 ∧
      gammaHat (fun _ _ => 1) 1 1 1 ≠ gammaHatOnce (fun _ _ => 1) 1 1 1 := by
  have hf : fold 1 1 0 = [0] := rfl
  have hr : List.range 1 = [0] := rfl
  have h1 : gammaHat (fun _ _ => 1) 1 1 1 = 2 := by
    simp [gammaHat, gammaFold, innerGamma, hr, hf]
    norm_num
  have h2 : gammaHatOnce (fun _ _ => 1) 1 1 1 = 1 := by
    simp [gammaHatOnce, innerGammaOnce, hr, hf]
  exact ⟨h1, h2, by rw [h1, h2]; norm_num⟩

/-! ### σ̂² and the confidence interval -/

/-- Modelled from the spec: σ̂² computed from the Γ̂ and Ĵ components of the
cluster-robust variance estimator. -/
def sigmaHatDML (psi psi_a : ℕ → ℕ → ℚ) (N M K : ℕ) : ℚ :=
  sigmaHat2 (gammaHat psi N M K) (jHat psi_a N M K)

/-- Modelled from the spec: the normalization constant of the confidence
interval, `min(N, M)` for two-way clustering and `N` for one-way. -/
def normConst (oneway : Bool) (N M : ℕ) : ℕ :=
  if oneway then N else min N M

/-- Modelled from the spec: the returned `(1-α)` confidence interval
`θ̃ ± q √(σ̂²/C)`, where `q` stands for the normal quantile `Φ⁻¹(1-α/2)`. -/
noncomputable def confInt (theta q : ℝ) (sigma2 : ℚ) (C : ℕ) : ℝ × ℝ :=
  (theta - q * Real.sqrt ((sigma2 : ℝ) / (C : ℝ)),
    theta + q * Real.sqrt ((sigma2 : ℝ) / (C : ℝ)))

/-- C5: given `Ĵ ≠ 0`, the returned variance satisfies the sandwich identity
`Ĵ σ̂² Ĵ = Γ̂` (that is, `σ̂² = Ĵ⁻¹ Γ̂ Ĵ⁻¹`), and for every level
`α ∈ (0, 1)` the returned confidence interval is
`θ̃ ± Φ⁻¹(1-α/2) √(σ̂²/C)` with `C = min(N, M)` for two-way clustering and
`C = N` for one-way clustering. -/
theorem variance_and_confidence_interval (psi psi_a : ℕ → ℕ → ℚ) (N M K : ℕ)
    (theta : ℝ) (Phi_inv : ℝ → ℝ) (alpha : ℝ)
    (halpha : 0 < alpha ∧ alpha < 1) (hj : jHat psi_a N M K ≠ 0) :
    jHat psi_a N M K * sigmaHatDML psi psi_a N M K * jHat psi_a N M K
        = gammaHat psi N M K ∧
      sigmaHatDML psi psi_a N M K =
        (jHat psi_a N M K)⁻¹ * gammaHat psi N M K * (jHat psi_a N M K)⁻¹ ∧
      (∀ oneway : Bool,
        confInt theta (Phi_inv (1 - alpha / 2)) (sigmaHatDML psi psi_a N M K)
            (normConst oneway N M) =
          (theta - Phi_inv (1 - alpha / 2) *
              Real.sqrt ((sigmaHatDML psi psi_a N M K : ℝ) / (normConst oneway N M : ℝ)),
            theta + Phi_inv (1 - alpha / 2) *
              Real.sqrt ((sigmaHatDML psi psi_a N M K : ℝ) / (normConst oneway N M : ℝ)))) ∧
      normConst false N M = min N M ∧ normConst true N M = N := by
  refine ⟨?_, rfl, fun _ => rfl, rfl, rfl⟩
  rw [sigmaHatDML, sigmaHat2]
  field_simp
  ring

theorem variance_and_confidence_interval_witness :
    (0 < (1 / 2 : ℝ) ∧ (1 / 2 : ℝ) < 1) ∧ jHat (fun _ _ => 1) 1 1 1 ≠ 0 ∧
      (jHat (fun _ _ => 1) 1 1 1 *
            sigmaHatDML (fun _ _ => 1) (fun _ _ => 1) 1 1 1 *
            jHat (fun _ _ => 1) 1 1 1 = gammaHat (fun _ _ => 1) 1 1 1 ∧
        sigmaHatDML (fun _ _ => 1) (fun _ _ => 1) 1 1 1 =
          (jHat (fun _ _ => 1) 1 1 1)⁻¹ * gammaHat (fun _ _ => 1) 1 1 1 *
            (jHat (fun _ _ => 1) 1 1 1)⁻¹ ∧
        (∀ oneway : Bool,
          confInt 0 ((fun _ => 0) (1 - (1 / 2 : ℝ) / 2))
              (sigmaHatDML (fun _ _ => 1) (fun _ _ => 1) 1 1 1)
              (normConst oneway 1 1) =
            (0 - (fun _ => (0 : ℝ)) (1 - (1 / 2 : ℝ) / 2) *
                Real.sqrt ((sigmaHatDML (fun _ _ => 1) (fun _ _ => 1) 1 1 1 : ℝ) /
                  (normConst oneway 1 1 : ℝ)),
              0 + (fun _ => (0 : ℝ)) (1 - (1 / 2 : ℝ) / 2) *
                Real.sqrt ((sigmaHatDML (fun _ _ => 1) (fun _ _ => 1) 1 1 1 : ℝ) /
                  (normConst oneway 1 1 : ℝ)))) ∧
        normConst false 1 1 = min 1 1 ∧ normConst true 1 1 = 1) := by
  have hj : jHat (fun _ _ => 1) 1 1 1 ≠ 0 := by
    have : jHat (fun _ _ => 1) 1 1 1 = 1 := by
      have hf : fold 1 1 0 = [0] := rfl
      have hr : List.range 1 = [0] := rfl
      simp [jHat, jFold, hr, hf]
    rw [this]
    norm_num
  exact ⟨⟨by norm_num, by norm_num⟩, hj,
    variance_and_confidence_interval (fun _ _ => 1) (fun _ _ => 1) 1 1 1 0
      (fun _ => 0) (1 / 2) ⟨by norm_num, by norm_num⟩ hj⟩

/-! ### The notebook's `construct_iv` (BLP instrument construction) -/

/-- A row of the BLP data frame as `construct_iv` reads it: the `firm.id`,
`cdid` (market) and `id` columns, and the feature columns indexed by their
position in `x_cols`. -/
structure BLPRow where
  firmid : Int
  cdid : Int
  idvar : Int
  x : ℕ → ℚ

/-- The row at position `i` of the frame (a default row out of range). -/
def rowAt (df : List BLPRow) (i : ℕ) : BLPRow :=
  df.getD i ⟨0, 0, 0, fun _ => 0⟩

/-- `construct_iv`'s mask `other_ind`: same `firm.id`, same `cdid`,
different `id` than row `i`. -/
def other_ind (df : List BLPRow) (i : ℕ) (r : BLPRow) : Bool :=
  (r.firmid == (rowAt df i).firmid) && (r.cdid == (rowAt df i).cdid) &&
    !(r.idvar == (rowAt df i).idvar)

/-- `construct_iv`'s mask `rival_ind`: different `firm.id`, same `cdid`. -/
def rival_ind (df : List BLPRow) (i : ℕ) (r : BLPRow) : Bool :=
  !(r.firmid == (rowAt df i).firmid) && (r.cdid == (rowAt df i).cdid)

/-- The notebook's `construct_iv`: for every row `i` it collects the `p`
sums `sum.other.v` of each feature over the rows selected by `other_ind`,
and the `p` sums `sum.rival.v` over the rows selected by `rival_ind`. -/
def construct_iv (df : List BLPRow) (p : ℕ) : List (List ℚ × List ℚ) :=
  (List.range df.length).map fun i =>
    ((List.range p).map fun j =>
        ((df.filter (other_ind df i)).map fun r => r.x j).sum,
      (List.range p).map fun j =>
        ((df.filter (rival_ind df i)).map fun r => r.x j).sum)

theorem rowAt_eq_get (df : List BLPRow) {i : ℕ} (hi : i < df.length) :
    rowAt df i = df.get ⟨i, hi⟩ := by
  rw [rowAt, List.getD_eq_getElem?_getD, List.getElem?_eq_getElem hi]
  simp

theorem sum_filter_eq_sum_ite (df : List BLPRow) (q : BLPRow → Bool)
    (g : BLPRow → ℚ) :
    ((df.filter q).map g).sum = (df.map fun r => if q r then g r else 0).sum := by
  induction df with
  | nil => rfl
  | cons a t ih => by_cases h : q a <;> simp [List.filter_cons, h, ih]

theorem construct_iv_entry (df : List BLPRow) (p : ℕ) {i j : ℕ}
    (hi : i < df.length) (hj : j < p) :
    ((construct_iv df p).getD i ([], [])).1.getD j 0 =
        ((df.filter (other_ind df i)).map fun r => r.x j).sum ∧
      ((construct_iv df p).getD i ([], [])).2.getD j 0 =
        ((df.filter (rival_ind df i)).map fun r => r.x j).sum := by
  have hrow : (construct_iv df p).getD i ([], []) =
      ((List.range p).map fun j =>
          ((df.filter (other_ind df i)).map fun r => r.x j).sum,
        (List.range p).map fun j =>
          ((df.filter (rival_ind df i)).map fun r => r.x j).sum) := by
    rw [construct_iv, List.getD_eq_getElem?_getD, List.getElem?_map,
      List.getElem?_range hi, Option.map_some', Option.getD_some]
  rw [hrow]
  dsimp only
  constructor <;>
    rw [List.getD_eq_getElem?_getD, List.getElem?_map, List.getElem?_range hj,
      Option.map_some', Option.getD_some]

theorem other_ind_iff (df : List BLPRow) (i : ℕ) (r : BLPRow) :
    other_ind df i r = true ↔
      r.firmid = (rowAt df i).firmid ∧ r.cdid = (rowAt df i).cdid ∧
        r.idvar ≠ (rowAt df i).idvar := by
  simp [other_ind, and_assoc]

theorem rival_ind_iff (df : List BLPRow) (i : ℕ) (r : BLPRow) :
    rival_ind df i r = true ↔
      r.firmid ≠ (rowAt df i).firmid ∧ r.cdid = (rowAt df i).cdid := by
  simp [rival_ind]

theorem other_sum_eq (df : List BLPRow) (p : ℕ) {i j : ℕ}
    (hi : i < df.length) (hj : j < p) :
    ((construct_iv df p).getD i ([], [])).1.getD j 0 =
      (df.map fun r =>
        if r.firmid = (rowAt df i).firmid ∧ r.cdid = (rowAt df i).cdid ∧
            r.idvar ≠ (rowAt df i).idvar then r.x j else 0).sum := by
  rw [(construct_iv_entry df p hi hj).1, sum_filter_eq_sum_ite]
  apply congrArg List.sum
  apply List.map_congr_left
  intro r _
  by_cases h : r.firmid = (rowAt df i).firmid ∧ r.cdid = (rowAt df i).cdid ∧
      r.idvar ≠ (rowAt df i).idvar
  · rw [if_pos ((other_ind_iff df i r).mpr h), if_pos h]
  · rw [if_neg (fun hc => h ((other_ind_iff df i r).mp hc)), if_neg h]

theorem rival_sum_eq (df : List BLPRow) (p : ℕ) {i j : ℕ}
    (hi : i < df.length) (hj : j < p) :
    ((construct_iv df p).getD i ([], [])).2.getD j 0 =
      (df.map fun r =>
        if r.firmid ≠ (rowAt df i).firmid ∧ r.cdid = (rowAt df i).cdid
          then r.x j else 0).sum := by
  rw [(construct_iv_entry df p hi hj).2, sum_filter_eq_sum_ite]
  apply congrArg List.sum
  apply List.map_congr_left
  intro r _
  by_cases h : r.firmid ≠ (rowAt df i).firmid ∧ r.cdid = (rowAt df i).cdid
  · rw [if_pos ((rival_ind_iff df i r).mpr h), if_pos h]
  · rw [if_neg (fun hc => h ((rival_ind_iff df i r).mp hc)), if_neg h]

/-- C9: `construct_iv` keeps one output row per input row, each carrying
`2 p` entries; for every row `i` and feature `j`, the `sum.other` entry is
the sum of feature `j` over the rows with the same `firm.id` and the same
`cdid` but a different `id`, and the `sum.rival` entry is the sum over the
rows with a different `firm.id` and the same `cdid`. -/
theorem construct_iv_spec (df : List BLPRow) (p : ℕ) :
    (construct_iv df p).length = df.length ∧
      (∀ s ∈ construct_iv df p, s.1.length = p ∧ s.2.length = p) ∧
      ∀ i, i < df.length → ∀ j, j < p →
        ((construct_iv df p).getD i ([], [])).1.getD j 0 =
            (df.map fun r =>
              if r.firmid = (rowAt df i).firmid ∧ r.cdid = (rowAt df i).cdid ∧
                  r.idvar ≠ (rowAt df i).idvar then r.x j else 0).sum ∧
          ((construct_iv df p).getD i ([], [])).2.getD j 0 =
            (df.map fun r =>
              if r.firmid ≠ (rowAt df i).firmid ∧ r.cdid = (rowAt df i).cdid
                then r.x j else 0).sum := by
  refine ⟨by simp [construct_iv], ?_, ?_⟩
  · intro s hs
    rw [construct_iv, List.mem_map] at hs
    obtain ⟨k, _, rfl⟩ := hs
    simp
  · intro i hi j hj
    exact ⟨other_sum_eq df p hi hj, rival_sum_eq df p hi hj⟩

theorem mem_eq_of_key_eq {α : Type} (key : α → Int) :
    ∀ l : List α, (l.map key).Nodup →
      ∀ a ∈ l, ∀ b ∈ l, key a = key b → a = b := by
  intro l
  induction l with
  | nil => intro _ a ha; cases ha
  | cons c t ih =>
    intro hnd a ha b hb hk
    rw [List.map_cons, List.nodup_cons] at hnd
    rcases List.mem_cons.mp ha with rfl | hat <;>
      rcases List.mem_cons.mp hb with rfl | hbt
    · rfl
    · exact absurd (hk ▸ List.mem_map_of_mem key hbt) hnd.1
    · exact absurd (hk ▸ List.mem_map_of_mem key hat) hnd.1
    · exact ih hnd.2 a hat b hbt hk

theorem sum_map_ite_key {α : Type} (key : α → Int) (g : α → ℚ) :
    ∀ l : List α, (l.map key).Nodup → ∀ a ∈ l,
      (l.map fun r => if key r = key a then g r else 0).sum = g a := by
  intro l
  induction l with
  | nil => intro _ a ha; cases ha
  | cons b t ih =>
    intro hnd a ha
    rw [List.map_cons, List.nodup_cons] at hnd
    rcases List.mem_cons.mp ha with rfl | hat
    · rw [List.map_cons, List.sum_cons, if_pos rfl]
      have hzero : ∀ r ∈ t, (if key r = key a then g r else 0) = 0 := by
        intro r hr
        have hne : key r ≠ key a := by
          intro h
          exact hnd.1 (h ▸ List.mem_map_of_mem key hr)
        simp [hne]
      rw [List.map_congr_left hzero]
      simp
    · rw [List.map_cons, List.sum_cons]
      have hba : key b ≠ key a := by
        intro h
        exact hnd.1 (h ▸ List.mem_map_of_mem key hat)
      rw [if_neg hba, ih hnd.2 a hat]
      ring

/-- C10: when the frame's `id` values are pairwise distinct, the
`sum.other` entry, the `sum.rival` entry and the row's own feature value add
up to the market total: the sum of the feature over all rows sharing the
row's `cdid`. The three masks partition the row's market. -/
theorem construct_iv_market_partition (df : List BLPRow) (p i j : ℕ)
    (hnd : (df.map BLPRow.idvar).Nodup) (hi : i < df.length) (hj : j < p) :
    ((construct_iv df p).getD i ([], [])).1.getD j 0 +
        ((construct_iv df p).getD i ([], [])).2.getD j 0 +
        (rowAt df i).x j =
      (df.map fun r => if r.cdid = (rowAt df i).cdid then r.x j else 0).sum := by
  have hmem : rowAt df i ∈ df := by
    rw [rowAt_eq_get df hi]
    exact List.get_mem df i hi
  have hown : (df.map fun r =>
      if r.cdid = (rowAt df i).cdid ∧ r.firmid = (rowAt df i).firmid ∧
          r.idvar = (rowAt df i).idvar then r.x j else 0).sum =
      (rowAt df i).x j := by
    have hcongr : ∀ r ∈ df,
        (if r.cdid = (rowAt df i).cdid ∧ r.firmid = (rowAt df i).firmid ∧
            r.idvar = (rowAt df i).idvar then r.x j else 0) =
          if r.idvar = (rowAt df i).idvar then r.x j else 0 := by
      intro r hr
      by_cases hid : r.idvar = (rowAt df i).idvar
      · have hreq : r = rowAt df i :=
          mem_eq_of_key_eq BLPRow.idvar df hnd r hr (rowAt df i) hmem hid
        rw [if_pos ⟨by rw [hreq], by rw [hreq], hid⟩, if_pos hid]
      · rw [if_neg (fun hc => hid hc.2.2), if_neg hid]
    rw [List.map_congr_left hcongr]
    exact sum_map_ite_key BLPRow.idvar (fun r => r.x j) df hnd (rowAt df i) hmem
  rw [other_sum_eq df p hi hj, rival_sum_eq df p hi hj, ← hown,
    ← List.sum_map_add, ← List.sum_map_add]
  apply congrArg List.sum
  apply List.map_congr_left
  intro r _
  by_cases hc : r.cdid = (rowAt df i).cdid <;>
    by_cases hf : r.firmid = (rowAt df i).firmid <;>
    by_cases hid : r.idvar = (rowAt df i).idvar <;>
    simp [hc, hf, hid]

theorem construct_iv_market_partition_witness :
    ((construct_iv [⟨1, 1, 1, fun _ => 2⟩, ⟨2, 1, 2, fun _ => 3⟩] 1).getD 0
          ([], [])).1.getD 0 0 +
        ((construct_iv [⟨1, 1, 1, fun _ => 2⟩, ⟨2, 1, 2, fun _ => 3⟩] 1).getD 0
          ([], [])).2.getD 0 0 +
        (rowAt [⟨1, 1, 1, fun _ => 2⟩, ⟨2, 1, 2, fun _ => 3⟩] 0).x 0 =
      (([⟨1, 1, 1, fun _ => 2⟩, ⟨2, 1, 2, fun _ => 3⟩] : List BLPRow).map
        fun r =>
          if r.cdid = (rowAt [⟨1, 1, 1, fun _ => 2⟩, ⟨2, 1, 2, fun _ => 3⟩] 0).cdid
            then r.x 0 else 0).sum :=
  construct_iv_market_partition [⟨1, 1, 1, fun _ => 2⟩, ⟨2, 1, 2, fun _ => 3⟩]
    1 0 0 (by decide) (by decide) (by decide)

end DoubleMLCluster
